import Mathlib

/-!
Verification development for the circuit-construction-kit repository.

The numeric type used throughout is `ℚ`.  Host math-library functions that the
JavaScript source calls (`Math.sin`, `Math.pow`, `Math.PI`, `Vector2.distance`)
are passed as explicit parameters, so every definition stays computable and the
algebraic structure of the source expressions is preserved exactly.
-/

/-- State of the older `ACVoltage` circuit element (`js/model/Resistor.js`,
second document): `voltageProperty`, `maximumVoltageProperty`,
`frequencyProperty`, the private `phase` (radians) and the private `time`. -/
structure ACVoltage where
  voltage : ℚ
  maximumVoltage : ℚ
  frequency : ℚ
  phase : ℚ
  time : ℚ
deriving DecidableEq

/-- Embedding of the older `ACVoltage.step( time, dt )`: stores the elapsed
time and sets `voltageProperty` to
`maximumVoltageProperty.value * Math.sin( 2 * Math.PI * frequencyProperty.value * time + this.phase )`.
`sin` and `pi` stand for the host `Math.sin` and `Math.PI`. -/
def ACVoltage.step (sin : ℚ → ℚ) (pi : ℚ) (time _dt : ℚ) (s : ACVoltage) : ACVoltage :=
  { s with
    time := time
    voltage := s.maximumVoltage * sin (2 * pi * s.frequency * time + s.phase) }

/-- Embedding of the older `ACVoltage`'s `frequencyProperty.link` listener
(`js/model/Resistor.js` lines 188-193): on a frequency change it records
`oldArgument = 2 * Math.PI * oldFrequency * this.time + this.phase` and sets
`this.phase = oldArgument - 2 * Math.PI * frequency * this.time`. -/
def ACVoltage.setFrequency (pi : ℚ) (frequency : ℚ) (s : ACVoltage) : ACVoltage :=
  let oldArgument := 2 * pi * s.frequency * s.time + s.phase
  { s with
    frequency := frequency
    phase := oldArgument - 2 * pi * frequency * s.time }

/-- State of the newer `ACVoltage` circuit element (`js/model/Resistor.js`,
third document): `phaseProperty` is stored in degrees. -/
structure ACVoltageNew where
  voltage : ℚ
  maximumVoltage : ℚ
  frequency : ℚ
  phaseDegrees : ℚ
  time : ℚ
deriving DecidableEq

/-- Embedding of the newer `ACVoltage.step( time, dt, circuit )`: sets
`voltageProperty` to
`maximumVoltageProperty.value * Math.sin( 2 * Math.PI * frequencyProperty.value * time + phaseProperty.value * Math.PI / 180 )`.
The `super.step` call does not touch `voltageProperty`, which is overwritten
here in any case. -/
def ACVoltageNew.step (sin : ℚ → ℚ) (pi : ℚ) (time _dt : ℚ) (s : ACVoltageNew) : ACVoltageNew :=
  { s with
    time := time
    voltage := s.maximumVoltage * sin (2 * pi * s.frequency * time + s.phaseDegrees * pi / 180) }

/-- Embedding of `DOT/Util.clamp( value, min, max )` as used by the brightness
listeners. -/
def clamp (value lo hi : ℚ) : ℚ :=
  if value < lo then lo else if value > hi then hi else value

/-- Embedding of the brightness listener of the older
`common/view/CCKLightBulbNode.js` (lines 39-53): power is `|current * voltageDifference|`
clamped into `[1e-6, 60 * 15]`, brightness is `(power / 60) ^ 0.354 * 0.4`
clamped into `[0, 1]`.  `pow` stands for the host `Math.pow`. -/
def updateBrightness (pow : ℚ → ℚ → ℚ) (current voltageDifference : ℚ) : ℚ :=
  let power := |current * voltageDifference|
  let maxPower : ℚ := 60
  let minPower : ℚ := 1e-6
  let power := min power (maxPower * 15)
  let power := max power minPower
  let brightness := pow (power / maxPower) 0.354 * 0.4
  clamp brightness 0 1

/-- Embedding of the brightness listener of the newer `view/CCKLightBulbNode.js`
(lines 60-77): identical to `updateBrightness` except that brightness is forced
to `0` whenever `power <= minPower`. -/
def updateBrightnessNew (pow : ℚ → ℚ → ℚ) (current voltageDifference : ℚ) : ℚ :=
  let power := |current * voltageDifference|
  let maxPower : ℚ := 60
  let minPower : ℚ := 1e-6
  let power := min power (maxPower * 15)
  let power := max power minPower
  let brightness := pow (power / maxPower) 0.354 * 0.4
  let brightness := if power ≤ minPower then 0 else brightness
  clamp brightness 0 1

/-- The assertion executed by `CustomLightBulbNode.update`
(`js/view/CustomLightBulbNode.js` line 167):
`assert( brightness >= 0 && brightness <= 1 )`. -/
def brightnessAssertion (brightness : ℚ) : Prop :=
  0 ≤ brightness ∧ brightness ≤ 1

/-- A list of chart nodes is modelled abstractly by its element type `α`
together with the per-chart `step( time, dt )` function. Embedding of
`CCKCScreenView.stepOnce( dt )` (`unnamed/part_003` lines 440-449): when
`dt >= CCKCConstants.MAX_DT` the method returns immediately; otherwise every
chart node is stepped.  The constant `CCKCConstants.MAX_DT` is not among the
provided sources, so it is the parameter `maxDT`. -/
def stepOnce {α : Type} (maxDT : ℚ) (stepChart : ℚ → ℚ → α → α) (time dt : ℚ)
    (chartNodes : List α) : List α :=
  if dt ≥ maxDT then chartNodes
  else chartNodes.map (stepChart time dt)

theorem clamp_bounds (value lo hi : ℚ) (h : lo ≤ hi) :
    lo ≤ clamp value lo hi ∧ clamp value lo hi ≤ hi := by
  unfold clamp
  split_ifs with h1 h2 <;> constructor <;> linarith

/-- C2: after `step( t, dt )`, the older ACVoltage's voltageProperty equals
`Vmax * sin(2π f t + phase)`, and the newer variant's equals
`Vmax * sin(2π f t + phaseDegrees * π / 180)` (its stored phase is in degrees
and is converted to radians before evaluation). -/
theorem acVoltage_step_voltage (sin : ℚ → ℚ) (pi : ℚ) (t dt : ℚ)
    (s : ACVoltage) (s2 : ACVoltageNew) :
    (s.step sin pi t dt).voltage
        = s.maximumVoltage * sin (2 * pi * s.frequency * t + s.phase) ∧
    (s2.step sin pi t dt).voltage
        = s2.maximumVoltage * sin (2 * pi * s2.frequency * t + s2.phaseDegrees * pi / 180) :=
  ⟨rfl, rfl⟩

/-- C9: when the older ACVoltage's frequency changes at elapsed time `t`, the
stored phase is updated so the instantaneous sine argument is unchanged:
`2π f_new t + phase_new = 2π f_old t + phase_old`; consequently the voltage
computed by `step` at the moment of the edit is unchanged. -/
theorem acVoltage_setFrequency_phase_matching (sin : ℚ → ℚ) (pi : ℚ)
    (frequency dt : ℚ) (s : ACVoltage) :
    2 * pi * frequency * s.time + (s.setFrequency pi frequency).phase
        = 2 * pi * s.frequency * s.time + s.phase ∧
    ((s.setFrequency pi frequency).step sin pi s.time dt).voltage
        = (s.step sin pi s.time dt).voltage := by
  have harg : 2 * pi * frequency * s.time + (s.setFrequency pi frequency).phase
      = 2 * pi * s.frequency * s.time + s.phase := by
    simp only [ACVoltage.setFrequency]
    ring
  refine ⟨harg, ?_⟩
  show (s.setFrequency pi frequency).maximumVoltage
        * sin (2 * pi * (s.setFrequency pi frequency).frequency * s.time
            + (s.setFrequency pi frequency).phase)
      = s.maximumVoltage * sin (2 * pi * s.frequency * s.time + s.phase)
  have hfreq : (s.setFrequency pi frequency).frequency = frequency := rfl
  have hmax : (s.setFrequency pi frequency).maximumVoltage = s.maximumVoltage := rfl
  rw [hfreq, hmax, harg]

/-- C10: for every current and voltage difference (and every power function),
the brightness produced by either brightness listener lies in `[0, 1]`, so the
assertion `brightness >= 0 && brightness <= 1` in `CustomLightBulbNode.update`
never fails for the value it receives. -/
theorem brightness_in_unit_interval (pow : ℚ → ℚ → ℚ) (current voltageDifference : ℚ) :
    brightnessAssertion (updateBrightness pow current voltageDifference) ∧
    brightnessAssertion (updateBrightnessNew pow current voltageDifference) :=
  ⟨clamp_bounds _ 0 1 (by norm_num), clamp_bounds _ 0 1 (by norm_num)⟩

/-- C3: when the frame's `dt` is at or above the sanity threshold `MAX_DT`,
`stepOnce` returns without stepping any chart node: the chart-node list is
returned unchanged. -/
theorem stepOnce_skips_large_dt {α : Type} (maxDT : ℚ) (stepChart : ℚ → ℚ → α → α)
    (time dt : ℚ) (chartNodes : List α) (h : dt ≥ maxDT) :
    stepOnce maxDT stepChart time dt chartNodes = chartNodes := by
  unfold stepOnce
  rw [if_pos h]

/-- Witness for C3: a concrete oversized `dt` is skipped. -/
theorem stepOnce_skips_large_dt_witness :
    (2 : ℚ) ≥ 1 ∧ stepOnce (1 : ℚ) (fun _ _ (n : ℕ) => n + 1) 0 2 [5] = [5] :=
  ⟨by norm_num, stepOnce_skips_large_dt 1 (fun _ _ n => n + 1) 0 2 [5] (by norm_num)⟩

/-- A circuit vertex as seen by the voltmeter code: its solved
`voltageProperty`, its `insideTrueBlackBoxProperty` flag and its position. -/
structure Vertex where
  voltage : ℚ
  insideTrueBlackBox : Bool
  position : ℚ × ℚ
deriving DecidableEq

/-- Embedding of the `VoltageConnection` class of `js/view/ChargeNode.js`
(lines 1100-1111): a vertex together with a voltage measured at it. -/
structure VoltageConnection where
  vertex : Vertex
  voltage : ℚ
deriving DecidableEq

/-- Embedding of `CircuitLayerNode.getVoltage( redConnection, blackConnection )`
(`js/view/ChargeNode.js` lines 1031-1054).  The circuit's
`areVerticesElectricallyConnected` query and the model's `revealingProperty`
are parameters, since the `Circuit` class is not among the provided sources. -/
def getVoltage (areVerticesElectricallyConnected : Vertex → Vertex → Bool)
    (revealing : Bool) (redConnection blackConnection : Option VoltageConnection) :
    Option ℚ :=
  match redConnection, blackConnection with
  | none, _ => none
  | _, none => none
  | some red, some black =>
    if ¬ areVerticesElectricallyConnected red.vertex black.vertex then none
    else if red.vertex.insideTrueBlackBox ∧ ¬ revealing then none
    else if black.vertex.insideTrueBlackBox ∧ ¬ revealing then none
    else some (red.voltage - black.voltage)

/-- The constant `SOLDER_RADIUS` of `js/view/SolderNode.js` (line 21). -/
def SOLDER_RADIUS : ℚ := 11.2

/-- Embedding of the solder branch of
`CircuitLayerNode.getVoltageConnection( probePosition )`
(`js/view/ChargeNode.js` lines 963-1022): the first solder node whose vertex
position is within `SOLDER_RADIUS` of the probe yields a `VoltageConnection`
carrying that vertex's solved `voltageProperty`.  `dist` stands for
`Vector2.distance`; `fallback` abstracts the geometric hit tests against
metallic circuit elements and switches that run only when no solder is hit. -/
def getVoltageConnection (dist : ℚ × ℚ → ℚ × ℚ → ℚ) (solderVertices : List Vertex)
    (fallback : Option VoltageConnection) (probePosition : ℚ × ℚ) :
    Option VoltageConnection :=
  match solderVertices.find? (fun v => dist probePosition v.position ≤ SOLDER_RADIUS) with
  | some v => some ⟨v, v.voltage⟩
  | none => fallback

/-- C7: `getVoltage` returns `null` when either probe connection is `null`,
when the probed vertices are not electrically connected, or when a probed
vertex is inside an unrevealed black box; otherwise it returns
`redConnection.voltage - blackConnection.voltage`.  A probe within the solder
radius of a vertex reads that vertex's solved voltage. -/
theorem getVoltage_spec (conn : Vertex → Vertex → Bool) (revealing : Bool)
    (red black : Option VoltageConnection) (r b : VoltageConnection)
    (dist : ℚ × ℚ → ℚ × ℚ → ℚ) (solderVertices : List Vertex)
    (fallback : Option VoltageConnection) (probePosition : ℚ × ℚ) (v : Vertex) :
    getVoltage conn revealing none black = none ∧
    getVoltage conn revealing red none = none ∧
    (conn r.vertex b.vertex = false →
      getVoltage conn revealing (some r) (some b) = none) ∧
    (r.vertex.insideTrueBlackBox = true → revealing = false →
      getVoltage conn revealing (some r) (some b) = none) ∧
    (b.vertex.insideTrueBlackBox = true → revealing = false →
      getVoltage conn revealing (some r) (some b) = none) ∧
    (conn r.vertex b.vertex = true →
      (r.vertex.insideTrueBlackBox = false ∨ revealing = true) →
      (b.vertex.insideTrueBlackBox = false ∨ revealing = true) →
      getVoltage conn revealing (some r) (some b) = some (r.voltage - b.voltage)) ∧
    (solderVertices.find? (fun w => dist probePosition w.position ≤ SOLDER_RADIUS) = some v →
      getVoltageConnection dist solderVertices fallback probePosition = some ⟨v, v.voltage⟩) := by
  refine ⟨?_, ?_, ?_, ?_, ?_, ?_, ?_⟩
  · cases black <;> rfl
  · cases red <;> rfl
  · intro h
    simp [getVoltage, h]
  · intro hr hrev
    by_cases hconn : conn r.vertex b.vertex = true
    · simp [getVoltage, hconn, hr, hrev]
    · simp only [Bool.not_eq_true] at hconn
      simp [getVoltage, hconn]
  · intro hb hrev
    by_cases hconn : conn r.vertex b.vertex = true
    · by_cases hr : r.vertex.insideTrueBlackBox = true
      · simp [getVoltage, hconn, hr, hrev]
      · simp only [Bool.not_eq_true] at hr
        simp [getVoltage, hconn, hr, hb, hrev]
    · simp only [Bool.not_eq_true] at hconn
      simp [getVoltage, hconn]
  · intro hconn hr hb
    rcases hr with h | h <;> rcases hb with h2 | h2 <;>
      simp [getVoltage, hconn, h, h2]
  · intro hfind
    simp [getVoltageConnection, hfind]

/-- Witness for C7: a concrete probe pair with connected vertices outside any
black box reads the voltage difference `5 - 2 = 3`, and a probe on top of a
solder point reads that vertex's voltage. -/
theorem getVoltage_spec_witness :
    getVoltage (fun _ _ => true) false
        (some ⟨⟨5, false, (0, 0)⟩, 5⟩) (some ⟨⟨2, false, (1, 0)⟩, 2⟩) = some 3 ∧
    getVoltageConnection (fun _ _ => 0) [⟨5, false, (0, 0)⟩] none (0, 0)
        = some ⟨⟨5, false, (0, 0)⟩, 5⟩ := by
  have h := getVoltage_spec (fun _ _ => true) false
    (some ⟨⟨5, false, (0, 0)⟩, 5⟩) (some ⟨⟨2, false, (1, 0)⟩, 2⟩)
    ⟨⟨5, false, (0, 0)⟩, 5⟩ ⟨⟨2, false, (1, 0)⟩, 2⟩
    (fun _ _ => 0) [⟨5, false, (0, 0)⟩] none (0, 0) ⟨5, false, (0, 0)⟩
  have hfind : List.find?
      (fun w : Vertex => ((fun (_ _ : ℚ × ℚ) => (0 : ℚ)) ((0 : ℚ), (0 : ℚ)) w.position
        ≤ SOLDER_RADIUS : Bool))
      [⟨5, false, (0, 0)⟩] = some ⟨5, false, (0, 0)⟩ := by
    rw [List.find?_cons_of_pos]
    simp only [decide_eq_true_eq, SOLDER_RADIUS]
    norm_num
  refine ⟨?_, h.2.2.2.2.2.2 hfind⟩
  have h6 := h.2.2.2.2.2.1 rfl (Or.inl rfl) (Or.inl rfl)
  rw [h6]
  norm_num

/-- Modelled from the spec: the non-linear/dynamic iteration driver (spec 4.4)
is not among the provided sources.  `resolve` re-stamps and re-solves once;
`converged` compares two successive iterates against the tolerance; the fuel
argument is the remaining iteration budget.  When the budget is exhausted the
driver stops and returns the last iterate. -/
def iterateToConvergence {α : Type} (resolve : α → α) (converged : α → α → Bool) :
    ℕ → α → α
  | 0, s => s
  | fuel + 1, s =>
    let next := resolve s
    if converged s next then next else iterateToConvergence resolve converged fuel next

/-- Modelled from the spec: the iteration cap, "e.g. 100" (spec 4.4). -/
def MAX_ITERATIONS : ℕ := 100

theorem iterateToConvergence_eq_iterate {α : Type} (resolve : α → α)
    (converged : α → α → Bool) :
    ∀ (cap : ℕ) (s : α), ∃ j ≤ cap,
      iterateToConvergence resolve converged cap s = resolve^[j] s := by
  intro cap
  induction cap with
  | zero => exact fun s => ⟨0, le_rfl, rfl⟩
  | succ k ih =>
    intro s
    by_cases h : converged s (resolve s) = true
    · exact ⟨1, by omega, by simp [iterateToConvergence, h]⟩
    · obtain ⟨j, hj, heq⟩ := ih (resolve s)
      refine ⟨j + 1, by omega, ?_⟩
      simp only [iterateToConvergence, h, if_false, Bool.false_eq_true]
      rw [heq, Function.iterate_succ_apply]

/-- C5: the iteration driver is a total function that always produces a value
(never an exception): its result is some iterate `resolve^[j]` with
`j ≤ cap`, and when convergence never occurs within the cap it stops and
returns the last iterate `resolve^[cap] s` as a best-effort result. -/
theorem iteration_cap_best_effort {α : Type} (resolve : α → α)
    (converged : α → α → Bool) (cap : ℕ) (s : α)
    (hnever : ∀ a b : α, converged a b = false) :
    (∃ j ≤ cap, iterateToConvergence resolve converged cap s = resolve^[j] s) ∧
    iterateToConvergence resolve converged cap s = resolve^[cap] s := by
  refine ⟨iterateToConvergence_eq_iterate resolve converged cap s, ?_⟩
  induction cap generalizing s with
  | zero => rfl
  | succ k ih =>
    simp only [iterateToConvergence, hnever, if_false, Bool.false_eq_true]
    rw [ih, Function.iterate_succ_apply]

/-- Witness for C5: with a convergence test that never succeeds and the cap
`MAX_ITERATIONS = 100`, the driver returns the 100th iterate of the successor
function applied to 0, i.e. 100. -/
theorem iteration_cap_best_effort_witness :
    (∀ a b : ℕ, (fun (_ _ : ℕ) => false) a b = false) ∧
    iterateToConvergence (fun n : ℕ => n + 1) (fun _ _ => false) MAX_ITERATIONS 0
      = Nat.succ^[MAX_ITERATIONS] 0 := by
  have h := iteration_cap_best_effort (fun n : ℕ => n + 1) (fun _ _ => false)
    MAX_ITERATIONS 0 (fun _ _ => rfl)
  exact ⟨fun _ _ => rfl, h.2⟩

/-- Modelled from the spec: the solver core (spec 4.2-4.3) is not among the
provided sources.  `MIN_RESISTANCE` is the minimum resistance floor, "e.g.
1e-8", used to avoid singular matrices for ideal wires and closed switches. -/
def MIN_RESISTANCE : ℚ := 1e-8

/-- Signed incidence of the ordered node pair `(a, b)` at node `v`: `+1` at
`a`, `-1` at `b`, `0` elsewhere (and `0` for a self-loop). -/
def inc {m : ℕ} (a b v : Fin m) : ℚ :=
  (if v = a then 1 else 0) - (if v = b then 1 else 0)

/-- Modelled from the spec (4.2): an ideal voltage-source stamp between two
nodes, handled by the modified-nodal-analysis extension with one extra current
unknown per source. -/
structure MNABattery (n : ℕ) where
  node0 : Fin (n + 1)
  node1 : Fin (n + 1)
  voltage : ℚ
deriving DecidableEq

/-- Modelled from the spec (4.2): a resistor between two nodes. -/
structure MNAResistor (n : ℕ) where
  node0 : Fin (n + 1)
  node1 : Fin (n + 1)
  resistance : ℚ
deriving DecidableEq

/-- Modelled from the spec (4.2): a switch between two nodes with its
closed-state. -/
structure MNASwitch (n : ℕ) where
  node0 : Fin (n + 1)
  node1 : Fin (n + 1)
  closed : Bool
deriving DecidableEq

/-- Modelled from the spec (4.2): a fixed current injection between two nodes
(companion-model Norton current sources). -/
structure MNACurrentSource (n : ℕ) where
  node0 : Fin (n + 1)
  node1 : Fin (n + 1)
  current : ℚ
deriving DecidableEq

/-- A conductance term contributed to the nodal admittance matrix. -/
structure Conductor (n : ℕ) where
  node0 : Fin (n + 1)
  node1 : Fin (n + 1)
  conductance : ℚ
deriving DecidableEq

/-- Modelled from the spec (4.3): one island of the circuit, with nodes
`0, 1, …, n` where node `0` is the chosen reference (ground) vertex, so there
are `n` unknown node voltages plus one unknown current per voltage source. -/
structure MNACircuit (n : ℕ) where
  batteries : List (MNABattery n)
  resistors : List (MNAResistor n)
  switches : List (MNASwitch n)
  currentSources : List (MNACurrentSource n)
deriving DecidableEq

/-- Modelled from the spec (4.2): a resistor stamps the conductance
`G = 1 / max(R, MIN_RESISTANCE)` between its two nodes. -/
def MNAResistor.stamp {n : ℕ} (r : MNAResistor n) : Conductor n :=
  ⟨r.node0, r.node1, 1 / max r.resistance MIN_RESISTANCE⟩

/-- Modelled from the spec (4.2): a closed switch stamps as a wire (the
minimum resistance); an open switch stamps nothing at all. -/
def MNASwitch.stamp {n : ℕ} (s : MNASwitch n) : Option (Conductor n) :=
  if s.closed then some ⟨s.node0, s.node1, 1 / MIN_RESISTANCE⟩ else none

/-- All conductance terms stamped into one island's linear system. -/
def MNACircuit.conductors {n : ℕ} (c : MNACircuit n) : List (Conductor n) :=
  c.resistors.map MNAResistor.stamp ++ c.switches.filterMap MNASwitch.stamp

/-- Index type for the island's unknowns: `n` non-reference node voltages plus
one current per voltage source. -/
abbrev MNACircuit.Unknown {n : ℕ} (c : MNACircuit n) : Type :=
  Fin n ⊕ Fin c.batteries.length

/-- Modelled from the spec (4.3): the assembled MNA system matrix.  Node row
`i` (for node `i + 1`) collects the conductance stamps plus the incidence of
each voltage-source current; source row `s` states the voltage constraint of
source `s`. -/
def MNACircuit.matrix {n : ℕ} (c : MNACircuit n) : Matrix c.Unknown c.Unknown ℚ :=
  fun i j =>
    match i, j with
    | Sum.inl i, Sum.inl j =>
      (c.conductors.map (fun e =>
        e.conductance * inc e.node0 e.node1 i.succ * inc e.node0 e.node1 j.succ)).sum
    | Sum.inl i, Sum.inr s =>
      inc (c.batteries.get s).node0 (c.batteries.get s).node1 i.succ
    | Sum.inr s, Sum.inl j =>
      inc (c.batteries.get s).node0 (c.batteries.get s).node1 j.succ
    | Sum.inr _, Sum.inr _ => 0

/-- Modelled from the spec (4.3): the right-hand side of the linear system:
current injections at each non-reference node, and each voltage source's
voltage. -/
def MNACircuit.rhs {n : ℕ} (c : MNACircuit n) : c.Unknown → ℚ :=
  fun i =>
    match i with
    | Sum.inl i =>
      (c.currentSources.map (fun q => inc q.node1 q.node0 i.succ * q.current)).sum
    | Sum.inr s => (c.batteries.get s).voltage

/-- Modelled from the spec (4.3): the direct linear solve of the assembled
system, returning the unknown vector (node voltages and source currents). -/
noncomputable def MNACircuit.solve {n : ℕ} (c : MNACircuit n) : c.Unknown → ℚ :=
  (c.matrix)⁻¹.mulVec c.rhs

/-- Voltage at a node of the island for a given unknown vector: the reference
node `0` is grounded at `0`; node `i + 1` reads unknown `i`. -/
def voltAt {n k : ℕ} (x : Fin n ⊕ Fin k → ℚ) (v : Fin (n + 1)) : ℚ :=
  Fin.cases 0 (fun i => x (Sum.inl i)) v

/-- The branch current carried by a conductance term, from `node0` to `node1`:
`G * (V(node0) - V(node1))`. -/
def Conductor.current {n k : ℕ} (e : Conductor n) (x : Fin n ⊕ Fin k → ℚ) : ℚ :=
  e.conductance * (voltAt x e.node0 - voltAt x e.node1)

/-- The solved current through a switch's branch: the current of its stamped
conductance, and `0` for an open switch, which stamps nothing and leaves its
nodes electrically disconnected. -/
def MNASwitch.current {n k : ℕ} (s : MNASwitch n) (x : Fin n ⊕ Fin k → ℚ) : ℚ :=
  match s.stamp with
  | some e => e.current x
  | none => 0

/-- Sum of the currents flowing into node `v` from every element touching it
(conductance stamps, voltage-source branches, and current sources), computed
from the unknown vector `x`.  The incidence factor `inc node1 node0 v` is `+1`
where the branch current enters `v`, `-1` where it leaves, and `0` for
elements not touching `v`. -/
def MNACircuit.kclSum {n : ℕ} (c : MNACircuit n) (x : c.Unknown → ℚ) (v : Fin (n + 1)) : ℚ :=
  (c.conductors.map (fun e => inc e.node1 e.node0 v * e.current x)).sum
  + (∑ s : Fin c.batteries.length,
      inc (c.batteries.get s).node1 (c.batteries.get s).node0 v * x (Sum.inr s))
  + (c.currentSources.map (fun q => inc q.node1 q.node0 v * q.current)).sum

theorem sum_ite_succ_eq_voltAt {n k : ℕ} (x : Fin n ⊕ Fin k → ℚ) (v : Fin (n + 1)) :
    (∑ j : Fin n, (if j.succ = v then (1 : ℚ) else 0) * x (Sum.inl j)) = voltAt x v := by
  refine Fin.cases ?_ ?_ v
  · simp [voltAt, Fin.succ_ne_zero]
  · intro w
    simp [voltAt, Fin.succ_inj, ite_mul]

theorem sum_inc_mul {n k : ℕ} (a b : Fin (n + 1)) (x : Fin n ⊕ Fin k → ℚ) :
    (∑ j : Fin n, inc a b j.succ * x (Sum.inl j)) = voltAt x a - voltAt x b := by
  unfold inc
  simp only [sub_mul]
  rw [Finset.sum_sub_distrib, sum_ite_succ_eq_voltAt, sum_ite_succ_eq_voltAt]

theorem sum_list_row {n k : ℕ} (L : List (Conductor n)) (x : Fin n ⊕ Fin k → ℚ) (i : Fin n) :
    (∑ j : Fin n,
        (L.map (fun e =>
          e.conductance * inc e.node0 e.node1 i.succ * inc e.node0 e.node1 j.succ)).sum
          * x (Sum.inl j))
      = (L.map (fun e => inc e.node0 e.node1 i.succ * e.current x)).sum := by
  induction L with
  | nil => simp
  | cons e L ih =>
    simp only [List.map_cons, List.sum_cons, add_mul]
    rw [Finset.sum_add_distrib, ih]
    have hterm : ∀ j : Fin n,
        e.conductance * inc e.node0 e.node1 i.succ * inc e.node0 e.node1 j.succ * x (Sum.inl j)
          = e.conductance * inc e.node0 e.node1 i.succ
            * (inc e.node0 e.node1 j.succ * x (Sum.inl j)) := by
      intro j
      ring
    rw [Finset.sum_congr rfl (fun j _ => hterm j), ← Finset.mul_sum, sum_inc_mul]
    unfold Conductor.current
    ring

theorem mulVec_row_node {n : ℕ} (c : MNACircuit n) (x : c.Unknown → ℚ) (i : Fin n) :
    c.matrix.mulVec x (Sum.inl i)
      = (c.conductors.map (fun e => inc e.node0 e.node1 i.succ * e.current x)).sum
        + ∑ s : Fin c.batteries.length,
            inc (c.batteries.get s).node0 (c.batteries.get s).node1 i.succ * x (Sum.inr s) := by
  unfold Matrix.mulVec Matrix.dotProduct
  rw [Fintype.sum_sum_type]
  congr 1
  exact sum_list_row c.conductors x i

theorem list_sum_inc_swap {n : ℕ} {β : Type} (L : List β) (f g : β → Fin (n + 1))
    (v : Fin (n + 1)) (cur : β → ℚ) :
    (L.map (fun e => inc (g e) (f e) v * cur e)).sum
      = -((L.map (fun e => inc (f e) (g e) v * cur e)).sum) := by
  induction L with
  | nil => simp
  | cons e L ih =>
    simp only [List.map_cons, List.sum_cons, ih]
    have hswap : inc (g e) (f e) v = -(inc (f e) (g e) v) := by
      unfold inc
      ring
    rw [hswap]
    ring

theorem kclSum_succ_eq {n : ℕ} (c : MNACircuit n) (x : c.Unknown → ℚ) (i : Fin n) :
    c.kclSum x i.succ = c.rhs (Sum.inl i) - c.matrix.mulVec x (Sum.inl i) := by
  rw [mulVec_row_node]
  unfold MNACircuit.kclSum MNACircuit.rhs
  rw [list_sum_inc_swap c.conductors (fun e => e.node0) (fun e => e.node1) i.succ
        (fun e => e.current x)]
  have hbat : (∑ s : Fin c.batteries.length,
        inc (c.batteries.get s).node1 (c.batteries.get s).node0 i.succ * x (Sum.inr s))
      = -(∑ s : Fin c.batteries.length,
        inc (c.batteries.get s).node0 (c.batteries.get s).node1 i.succ * x (Sum.inr s)) := by
    rw [← Finset.sum_neg_distrib]
    refine Finset.sum_congr rfl ?_
    intro s _
    have hswap : inc (c.batteries.get s).node1 (c.batteries.get s).node0 i.succ
        = -(inc (c.batteries.get s).node0 (c.batteries.get s).node1 i.succ) := by
      unfold inc
      ring
    rw [hswap]
    ring
  rw [hbat]
  ring

theorem sum_inc_univ {n : ℕ} (a b : Fin (n + 1)) :
    (∑ v : Fin (n + 1), inc a b v) = 0 := by
  unfold inc
  rw [Finset.sum_sub_distrib]
  simp

theorem finset_sum_list_map_sum {β γ : Type} [Fintype γ] (L : List β) (f : γ → β → ℚ) :
    (∑ v : γ, (L.map (f v)).sum) = (L.map (fun e => ∑ v : γ, f v e)).sum := by
  induction L with
  | nil => simp
  | cons e L ih =>
    simp [Finset.sum_add_distrib, ih]

theorem sum_kclSum_univ {n : ℕ} (c : MNACircuit n) (x : c.Unknown → ℚ) :
    (∑ v : Fin (n + 1), c.kclSum x v) = 0 := by
  unfold MNACircuit.kclSum
  rw [Finset.sum_add_distrib, Finset.sum_add_distrib]
  rw [finset_sum_list_map_sum, finset_sum_list_map_sum]
  have hzero : ∀ (a b : Fin (n + 1)) (q : ℚ),
      (∑ v : Fin (n + 1), inc a b v * q) = 0 := by
    intro a b q
    rw [← Finset.sum_mul, sum_inc_univ, zero_mul]
  have h1 : (c.conductors.map (fun e =>
      ∑ v : Fin (n + 1), inc e.node1 e.node0 v * e.current x)).sum = 0 := by
    rw [List.sum_eq_zero]
    intro q hq
    obtain ⟨e, _, rfl⟩ := List.mem_map.mp hq
    exact hzero _ _ _
  have h3 : (c.currentSources.map (fun q =>
      ∑ v : Fin (n + 1), inc q.node1 q.node0 v * q.current)).sum = 0 := by
    rw [List.sum_eq_zero]
    intro q hq
    obtain ⟨e, _, rfl⟩ := List.mem_map.mp hq
    exact hzero _ _ _
  have h2 : (∑ v : Fin (n + 1), ∑ s : Fin c.batteries.length,
      inc (c.batteries.get s).node1 (c.batteries.get s).node0 v * x (Sum.inr s)) = 0 := by
    rw [Finset.sum_comm]
    refine Finset.sum_eq_zero ?_
    intro s _
    exact hzero _ _ _
  rw [h1, h2, h3]
  ring

/-- C1: in the solved state of an island whose assembled MNA matrix is
invertible, the sum of the currents computed from the circuit elements
touching any node — the reference node included — is zero, and in particular
within the `1e-6` tolerance of zero. -/
theorem kcl_node_currents_within_tolerance {n : ℕ} (c : MNACircuit n)
    (hdet : IsUnit c.matrix.det) (v : Fin (n + 1)) :
    c.kclSum c.solve v = 0 ∧ |c.kclSum c.solve v| ≤ 1e-6 := by
  have hsolve : c.matrix.mulVec c.solve = c.rhs := by
    unfold MNACircuit.solve
    rw [Matrix.mulVec_mulVec, Matrix.mul_nonsing_inv _ hdet, Matrix.one_mulVec]
  have hsucc : ∀ i : Fin n, c.kclSum c.solve i.succ = 0 := by
    intro i
    rw [kclSum_succ_eq, hsolve, sub_self]
  have hzero : c.kclSum c.solve 0 = 0 := by
    have htot := sum_kclSum_univ c c.solve
    rw [Fin.sum_univ_succ] at htot
    have hrest : (∑ i : Fin n, c.kclSum c.solve i.succ) = 0 :=
      Finset.sum_eq_zero (fun i _ => hsucc i)
    rw [hrest, add_zero] at htot
    exact htot
  have hv : c.kclSum c.solve v = 0 := Fin.cases hzero hsucc v
  refine ⟨hv, ?_⟩
  rw [hv]
  norm_num

/-- A concrete island: one 1-ohm resistor from node 1 to the reference node. -/
def exampleIsland : MNACircuit 1 := ⟨[], [⟨1, 0, 1⟩], [], []⟩

theorem exampleIsland_matrix_eq_one : exampleIsland.matrix = 1 := by
  funext i j
  cases i with
  | inr s => exact s.elim0
  | inl i =>
    cases j with
    | inr s => exact s.elim0
    | inl j =>
      have hi : i = 0 := Subsingleton.elim i 0
      have hj : j = 0 := Subsingleton.elim j 0
      subst hi hj
      rw [Matrix.one_apply_eq]
      show (exampleIsland.conductors.map (fun e =>
        e.conductance * inc e.node0 e.node1 (Fin.succ 0) * inc e.node0 e.node1 (Fin.succ 0))).sum = 1
      have hmax : max (1 : ℚ) MIN_RESISTANCE = 1 := by
        rw [MIN_RESISTANCE]
        norm_num
      simp [exampleIsland, MNACircuit.conductors, MNAResistor.stamp, hmax, inc]

/-- Witness for C1: the example island's matrix is invertible and Kirchhoff's
current law holds at its non-reference node. -/
theorem kcl_node_currents_within_tolerance_witness :
    IsUnit exampleIsland.matrix.det ∧
    |exampleIsland.kclSum exampleIsland.solve 1| ≤ 1e-6 := by
  have hdet : IsUnit exampleIsland.matrix.det := by
    rw [exampleIsland_matrix_eq_one, Matrix.det_one]
    exact isUnit_one
  exact ⟨hdet, (kcl_node_currents_within_tolerance exampleIsland hdet 1).2⟩

/-- C4: an open switch carries zero solved current regardless of the source
voltages, and removing it from the circuit changes neither the assembled
matrix, nor the right-hand side, nor the solution: its two nodes are left
electrically disconnected for the solve. -/
theorem open_switch_zero_current {n : ℕ} (c : MNACircuit n) (sw : MNASwitch n)
    (l1 l2 : List (MNASwitch n)) (hsplit : c.switches = l1 ++ sw :: l2)
    (hopen : sw.closed = false) :
    (∀ (k : ℕ) (x : Fin n ⊕ Fin k → ℚ), sw.current x = 0) ∧
    ({ c with switches := l1 ++ l2 } : MNACircuit n).matrix = c.matrix ∧
    ({ c with switches := l1 ++ l2 } : MNACircuit n).rhs = c.rhs ∧
    ({ c with switches := l1 ++ l2 } : MNACircuit n).solve = c.solve := by
  have hstamp : sw.stamp = none := by
    unfold MNASwitch.stamp
    rw [hopen]
    rfl
  have hcond : ({ c with switches := l1 ++ l2 } : MNACircuit n).conductors = c.conductors := by
    show c.resistors.map MNAResistor.stamp ++ (l1 ++ l2).filterMap MNASwitch.stamp
        = c.resistors.map MNAResistor.stamp ++ c.switches.filterMap MNASwitch.stamp
    rw [hsplit]
    simp [List.filterMap_append, List.filterMap_cons, hstamp]
  have hcur : ∀ (k : ℕ) (x : Fin n ⊕ Fin k → ℚ), sw.current x = 0 := by
    intro k x
    unfold MNASwitch.current
    rw [hstamp]
  have hmat : ({ c with switches := l1 ++ l2 } : MNACircuit n).matrix = c.matrix := by
    funext i j
    cases i with
    | inl i =>
      cases j with
      | inl j =>
        show (({ c with switches := l1 ++ l2 } : MNACircuit n).conductors.map (fun e =>
            e.conductance * inc e.node0 e.node1 i.succ * inc e.node0 e.node1 j.succ)).sum
          = (c.conductors.map (fun e =>
            e.conductance * inc e.node0 e.node1 i.succ * inc e.node0 e.node1 j.succ)).sum
        rw [hcond]
      | inr s => rfl
    | inr s =>
      cases j with
      | inl j => rfl
      | inr t => rfl
  have hrhs : ({ c with switches := l1 ++ l2 } : MNACircuit n).rhs = c.rhs := by
    funext i
    cases i with
    | inl i => rfl
    | inr s => rfl
  refine ⟨hcur, hmat, hrhs, ?_⟩
  show ({ c with switches := l1 ++ l2 } : MNACircuit n).matrix⁻¹.mulVec
      ({ c with switches := l1 ++ l2 } : MNACircuit n).rhs = c.matrix⁻¹.mulVec c.rhs
  rw [hmat, hrhs]

/-- Witness for C4: a concrete single-open-switch circuit in which the switch
branch carries zero current. -/
theorem open_switch_zero_current_witness :
    (⟨[], [], [⟨0, 1, false⟩], []⟩ : MNACircuit 1).switches
        = [] ++ (⟨0, 1, false⟩ : MNASwitch 1) :: [] ∧
    (⟨0, 1, false⟩ : MNASwitch 1).closed = false ∧
    MNASwitch.current (⟨0, 1, false⟩ : MNASwitch 1) (fun _ : Fin 1 ⊕ Fin 0 => 9) = 0 := by
  have h := open_switch_zero_current (⟨[], [], [⟨0, 1, false⟩], []⟩ : MNACircuit 1)
    ⟨0, 1, false⟩ [] [] rfl rfl
  exact ⟨rfl, rfl, h.1 0 (fun _ => 9)⟩

/-- Modelled from the spec (4.2): a capacitor with its companion-model history
(the previous converged step's voltage). -/
structure CapacitorState (n : ℕ) where
  node0 : Fin (n + 1)
  node1 : Fin (n + 1)
  capacitance : ℚ
  prevVoltage : ℚ
deriving DecidableEq

/-- Modelled from the spec (4.2): an inductor with its companion-model history
(the previous converged step's current). -/
structure InductorState (n : ℕ) where
  node0 : Fin (n + 1)
  node1 : Fin (n + 1)
  inductance : ℚ
  prevCurrent : ℚ
deriving DecidableEq

/-- Modelled from the spec (4.2): an AC voltage source with amplitude,
frequency and phase, evaluated at the stamping time. -/
structure ACSourceState (n : ℕ) where
  node0 : Fin (n + 1)
  node1 : Fin (n + 1)
  maximumVoltage : ℚ
  frequency : ℚ
  phase : ℚ
deriving DecidableEq

/-- Modelled from the spec (6): the input of `solve(circuit, dt, time)`: the
circuit topology and parameters, including each dynamic element's stored
history. -/
structure DynamicCircuit (n : ℕ) where
  batteries : List (MNABattery n)
  resistors : List (MNAResistor n)
  switches : List (MNASwitch n)
  acSources : List (ACSourceState n)
  capacitors : List (CapacitorState n)
  inductors : List (InductorState n)
deriving DecidableEq

/-- Modelled from the spec (4.2): assemble the MNA system for one time step.
AC sources stamp as voltage sources with `V(t) = Vmax * sin(2π f t + phase)`;
a capacitor stamps its Norton companion `G = C / dt` (as the resistance
`dt / C`) with current source `I = G * V_prev`; an inductor stamps `G = dt / L`
with current source `I = G * I_prev`. -/
def DynamicCircuit.assemble (sin : ℚ → ℚ) (pi : ℚ) {n : ℕ} (d : DynamicCircuit n)
    (dt time : ℚ) : MNACircuit n :=
  { batteries := d.batteries ++ d.acSources.map (fun a =>
      ⟨a.node0, a.node1, a.maximumVoltage * sin (2 * pi * a.frequency * time + a.phase)⟩),
    resistors := d.resistors
      ++ d.capacitors.map (fun cp => ⟨cp.node0, cp.node1, dt / cp.capacitance⟩)
      ++ d.inductors.map (fun ind => ⟨ind.node0, ind.node1, ind.inductance / dt⟩),
    switches := d.switches,
    currentSources :=
      d.capacitors.map (fun cp => ⟨cp.node0, cp.node1, cp.capacitance / dt * cp.prevVoltage⟩)
      ++ d.inductors.map (fun ind => ⟨ind.node0, ind.node1, dt / ind.inductance * ind.prevCurrent⟩) }

/-- Modelled from the spec (6): the `vertexVoltages` output of
`solve(circuit, dt, time)`. -/
noncomputable def DynamicCircuit.vertexVoltages (sin : ℚ → ℚ) (pi : ℚ) {n : ℕ}
    (d : DynamicCircuit n) (dt time : ℚ) : Fin (n + 1) → ℚ :=
  voltAt ((d.assemble sin pi dt time).solve)

/-- The `elementCurrents` output of a solved MNA system: the current of each
voltage source's extra unknown, of each resistor's and switch's stamped
branch, and of each current source. -/
noncomputable def MNACircuit.elementCurrents {n : ℕ} (c : MNACircuit n) : List ℚ :=
  (List.ofFn fun s : Fin c.batteries.length => c.solve (Sum.inr s))
  ++ c.resistors.map (fun r => r.stamp.current c.solve)
  ++ c.switches.map (fun s => s.current c.solve)
  ++ c.currentSources.map (fun q => q.current)

/-- Modelled from the spec (6): the `elementCurrents` output of
`solve(circuit, dt, time)`. -/
noncomputable def DynamicCircuit.elementCurrents (sin : ℚ → ℚ) (pi : ℚ) {n : ℕ}
    (d : DynamicCircuit n) (dt time : ℚ) : List ℚ :=
  (d.assemble sin pi dt time).elementCurrents

/-- C6: `solve` is a deterministic pure function of the topology, parameters
and stored history: two calls with identical circuit, `dt`, `time` and history
produce identical `vertexVoltages` and `elementCurrents`, and `solve` does not
mutate its input, so nothing distinguishes the two calls. -/
theorem solve_deterministic (sin : ℚ → ℚ) (pi : ℚ) {n : ℕ}
    (d1 d2 : DynamicCircuit n) (dt1 dt2 t1 t2 : ℚ)
    (hd : d1 = d2) (hdt : dt1 = dt2) (ht : t1 = t2) :
    DynamicCircuit.vertexVoltages sin pi d1 dt1 t1
        = DynamicCircuit.vertexVoltages sin pi d2 dt2 t2 ∧
    DynamicCircuit.elementCurrents sin pi d1 dt1 t1
        = DynamicCircuit.elementCurrents sin pi d2 dt2 t2 := by
  subst hd
  subst hdt
  subst ht
  exact ⟨rfl, rfl⟩

/-- Witness for C6: two identical calls on a concrete one-resistor circuit
yield the same outputs. -/
theorem solve_deterministic_witness :
    DynamicCircuit.vertexVoltages (fun _ => 0) 3
        (⟨[], [⟨1, 0, 1⟩], [], [], [], []⟩ : DynamicCircuit 1) 1 0
      = DynamicCircuit.vertexVoltages (fun _ => 0) 3
        (⟨[], [⟨1, 0, 1⟩], [], [], [], []⟩ : DynamicCircuit 1) 1 0 ∧
    DynamicCircuit.elementCurrents (fun _ => 0) 3
        (⟨[], [⟨1, 0, 1⟩], [], [], [], []⟩ : DynamicCircuit 1) 1 0
      = DynamicCircuit.elementCurrents (fun _ => 0) 3
        (⟨[], [⟨1, 0, 1⟩], [], [], [], []⟩ : DynamicCircuit 1) 1 0 :=
  solve_deterministic (fun _ => 0) 3
    (⟨[], [⟨1, 0, 1⟩], [], [], [], []⟩ : DynamicCircuit 1)
    (⟨[], [⟨1, 0, 1⟩], [], [], [], []⟩ : DynamicCircuit 1) 1 1 0 0 rfl rfl rfl

/-- An element of the graph model: the ids of its two vertices plus
representative mutable attributes (an editable parameter and the solved
current). -/
structure CircuitElementRec where
  startVertex : ℕ
  endVertex : ℕ
  resistance : ℚ
  current : ℚ
deriving DecidableEq

/-- Modelled from the spec (3): the Circuit owns the full vertex set and the
element set; vertices are identified by ids. -/
structure Circuit where
  vertices : List ℕ
  circuitElements : List CircuitElementRec
deriving DecidableEq

/-- The invariant of spec 3: an element's two vertices are always distinct and
both exist in the active vertex set. -/
def Circuit.vertexInvariant (c : Circuit) : Prop :=
  ∀ e ∈ c.circuitElements,
    e.startVertex ≠ e.endVertex ∧ e.startVertex ∈ c.vertices ∧ e.endVertex ∈ c.vertices

/-- A vertex id strictly larger than every id in use. -/
def Circuit.freshVertex (c : Circuit) : ℕ :=
  c.vertices.foldr max 0 + 1

/-- Modelled from the spec (3): element placement creates a new element
together with its two (new, distinct) vertices. -/
def Circuit.placeElement (c : Circuit) (resistance : ℚ) : Circuit :=
  { vertices := c.freshVertex :: (c.freshVertex + 1) :: c.vertices,
    circuitElements :=
      ⟨c.freshVertex, c.freshVertex + 1, resistance, 0⟩ :: c.circuitElements }

/-- Modelled from the spec (3): connecting merges `oldVertex` into
`targetVertex`, rewiring every element and dropping `oldVertex` from the
vertex set.  The merge is refused (no-op) when the two ids coincide, when the
target is not an active vertex, or when some element spans exactly the two
vertices being merged (its endpoints would collapse). -/
def Circuit.connect (c : Circuit) (targetVertex oldVertex : ℕ) : Circuit :=
  if targetVertex = oldVertex ∨ targetVertex ∉ c.vertices ∨
      ∃ e ∈ c.circuitElements,
        (e.startVertex = targetVertex ∧ e.endVertex = oldVertex) ∨
        (e.startVertex = oldVertex ∧ e.endVertex = targetVertex) then c
  else
    { vertices := c.vertices.filter (fun v => v ≠ oldVertex),
      circuitElements := c.circuitElements.map (fun e =>
        { e with
          startVertex := if e.startVertex = oldVertex then targetVertex else e.startVertex,
          endVertex := if e.endVertex = oldVertex then targetVertex else e.endVertex }) }

/-- Recursion of `Circuit.cutVertex` over the element list: each element
incident to the cut vertex is rewired to its own fresh vertex (ids `next`,
`next + 1`, …); the returned pair is the rewired element list and the list of
freshly created vertices. -/
def cutLoop (vertex : ℕ) : ℕ → List CircuitElementRec → List CircuitElementRec × List ℕ
  | _, [] => ([], [])
  | next, e :: rest =>
    if e.startVertex = vertex ∨ e.endVertex = vertex then
      ({ e with
          startVertex := if e.startVertex = vertex then next else e.startVertex,
          endVertex := if e.endVertex = vertex then next else e.endVertex }
        :: (cutLoop vertex (next + 1) rest).1,
        next :: (cutLoop vertex (next + 1) rest).2)
    else
      (e :: (cutLoop vertex (next + 1) rest).1, (cutLoop vertex (next + 1) rest).2)

/-- Modelled from the spec (3): cutting a vertex splits it, giving every
incident element its own fresh vertex; the cut vertex itself, now isolated, is
removed from the vertex set. -/
def Circuit.cutVertex (c : Circuit) (vertex : ℕ) : Circuit :=
  { vertices := (cutLoop vertex c.freshVertex c.circuitElements).2
      ++ c.vertices.filter (fun v => v ≠ vertex),
    circuitElements := (cutLoop vertex c.freshVertex c.circuitElements).1 }

/-- Modelled from the spec (3): a user parameter edit mutates one element's
parameter and leaves the topology alone. -/
def Circuit.editParameter (c : Circuit) (element : CircuitElementRec) (resistance : ℚ) :
    Circuit :=
  { c with
    circuitElements := c.circuitElements.map (fun e =>
      if e = element then { e with resistance := resistance } else e) }

/-- Modelled from the spec (3): a solve step commits new currents to the
elements and leaves the topology alone. -/
def Circuit.solveStep (c : Circuit) (currents : CircuitElementRec → ℚ) : Circuit :=
  { c with
    circuitElements := c.circuitElements.map (fun e => { e with current := currents e }) }

/-- Modelled from the spec (3): element removal erases the element, after
which vertices no longer used by any remaining element are removed as
isolated. -/
def Circuit.disposeCircuitElement (c : Circuit) (element : CircuitElementRec) : Circuit :=
  { vertices := c.vertices.filter (fun v =>
      (c.circuitElements.erase element).any (fun e =>
        e.startVertex = v ∨ e.endVertex = v)),
    circuitElements := c.circuitElements.erase element }

/-- A fixed-length circuit element as built by the
`FixedLengthCircuitElement` constructor. -/
structure FixedLengthCircuitElement where
  startVertex : Vertex
  endVertex : Vertex
  distanceBetweenVertices : ℚ
  electronPathLength : ℚ
deriving DecidableEq

/-- Embedding of the `FixedLengthCircuitElement` constructor
(`js/common/model/FixedLengthCircuitElement.js` lines 25-41): it measures
`measuredLength = startVertex.position.distance( endVertex.position )` and
asserts `Math.abs( distanceBetweenVertices - measuredLength ) < 1E-6`; a
failing assertion (no element constructed) is modelled as `none`.  `dist`
stands for `Vector2.distance`. -/
def mkFixedLengthCircuitElement (dist : ℚ × ℚ → ℚ × ℚ → ℚ)
    (distanceBetweenVertices : ℚ) (startVertex endVertex : Vertex) :
    Option FixedLengthCircuitElement :=
  let measuredLength := dist startVertex.position endVertex.position
  if |distanceBetweenVertices - measuredLength| < 1e-6 then
    some ⟨startVertex, endVertex, distanceBetweenVertices, distanceBetweenVertices⟩
  else none

theorem le_foldr_max (l : List ℕ) (v : ℕ) (hv : v ∈ l) : v ≤ l.foldr max 0 := by
  induction l with
  | nil => cases hv
  | cons a l ih =>
    rcases List.mem_cons.mp hv with rfl | h
    · exact le_max_left _ _
    · exact le_trans (ih h) (le_max_right _ _)

theorem vertex_lt_freshVertex (c : Circuit) {v : ℕ} (hv : v ∈ c.vertices) :
    v < c.freshVertex := by
  have := le_foldr_max c.vertices v hv
  unfold Circuit.freshVertex
  omega

theorem placeElement_preserves (c : Circuit) (resistance : ℚ)
    (h : c.vertexInvariant) : (c.placeElement resistance).vertexInvariant := by
  intro e he
  rcases List.mem_cons.mp he with rfl | hmem
  · refine ⟨Nat.ne_of_lt (Nat.lt_succ_self _), ?_, ?_⟩
    · exact List.mem_cons_self _ _
    · exact List.mem_cons.mpr (Or.inr (List.mem_cons_self _ _))
  · obtain ⟨hne, hs, hend⟩ := h e hmem
    exact ⟨hne,
      List.mem_cons.mpr (Or.inr (List.mem_cons.mpr (Or.inr hs))),
      List.mem_cons.mpr (Or.inr (List.mem_cons.mpr (Or.inr hend)))⟩

theorem connect_preserves (c : Circuit) (targetVertex oldVertex : ℕ)
    (h : c.vertexInvariant) : (c.connect targetVertex oldVertex).vertexInvariant := by
  unfold Circuit.connect
  split_ifs with hguard
  · exact h
  · have hto : targetVertex ≠ oldVertex := fun heq => hguard (Or.inl heq)
    have htmem : targetVertex ∈ c.vertices := by
      by_contra hm
      exact hguard (Or.inr (Or.inl hm))
    have hno : ∀ e ∈ c.circuitElements,
        ¬((e.startVertex = targetVertex ∧ e.endVertex = oldVertex) ∨
          (e.startVertex = oldVertex ∧ e.endVertex = targetVertex)) :=
      fun e he hp => hguard (Or.inr (Or.inr ⟨e, he, hp⟩))
    intro e' he'
    simp only [List.mem_map] at he'
    obtain ⟨e, he, rfl⟩ := he'
    obtain ⟨hne, hs, hend⟩ := h e he
    refine ⟨?_, ?_, ?_⟩
    · show (if e.startVertex = oldVertex then targetVertex else e.startVertex)
          ≠ (if e.endVertex = oldVertex then targetVertex else e.endVertex)
      by_cases h1 : e.startVertex = oldVertex <;> by_cases h2 : e.endVertex = oldVertex
      · exact absurd (h1.trans h2.symm) hne
      · rw [if_pos h1, if_neg h2]
        intro heq
        exact hno e he (Or.inr ⟨h1, heq.symm⟩)
      · rw [if_neg h1, if_pos h2]
        intro heq
        exact hno e he (Or.inl ⟨heq, h2⟩)
      · rw [if_neg h1, if_neg h2]
        exact hne
    · show (if e.startVertex = oldVertex then targetVertex else e.startVertex)
          ∈ c.vertices.filter (fun v => v ≠ oldVertex)
      by_cases h1 : e.startVertex = oldVertex
      · rw [if_pos h1]
        exact List.mem_filter.mpr ⟨htmem, by simp [hto]⟩
      · rw [if_neg h1]
        exact List.mem_filter.mpr ⟨hs, by simp [h1]⟩
    · show (if e.endVertex = oldVertex then targetVertex else e.endVertex)
          ∈ c.vertices.filter (fun v => v ≠ oldVertex)
      by_cases h2 : e.endVertex = oldVertex
      · rw [if_pos h2]
        exact List.mem_filter.mpr ⟨htmem, by simp [hto]⟩
      · rw [if_neg h2]
        exact List.mem_filter.mpr ⟨hend, by simp [h2]⟩

theorem cutLoop_spec (vertex : ℕ) (V : List ℕ) :
    ∀ (rest : List CircuitElementRec) (next : ℕ),
      (∀ v ∈ V, v < next) →
      (∀ e ∈ rest, e.startVertex ≠ e.endVertex ∧ e.startVertex ∈ V ∧ e.endVertex ∈ V) →
      ∀ e' ∈ (cutLoop vertex next rest).1,
        e'.startVertex ≠ e'.endVertex ∧
        (e'.startVertex ∈ (cutLoop vertex next rest).2 ∨
          (e'.startVertex ∈ V ∧ e'.startVertex ≠ vertex)) ∧
        (e'.endVertex ∈ (cutLoop vertex next rest).2 ∨
          (e'.endVertex ∈ V ∧ e'.endVertex ≠ vertex)) := by
  intro rest
  induction rest with
  | nil =>
    intro next _ _ e' he'
    simp [cutLoop] at he'
  | cons e rest ih =>
    intro next hbound hall e' he'
    have hbound2 : ∀ v ∈ V, v < next + 1 := fun v hv => Nat.lt_succ_of_lt (hbound v hv)
    have hall2 : ∀ x ∈ rest, x.startVertex ≠ x.endVertex ∧ x.startVertex ∈ V ∧ x.endVertex ∈ V :=
      fun x hx => hall x (List.mem_cons.mpr (Or.inr hx))
    obtain ⟨hne, hs, hend⟩ := hall e (List.mem_cons_self _ _)
    by_cases hinc : e.startVertex = vertex ∨ e.endVertex = vertex
    · simp only [cutLoop, if_pos hinc] at he' ⊢
      rcases List.mem_cons.mp he' with rfl | hmem
      · by_cases h1 : e.startVertex = vertex <;> by_cases h2 : e.endVertex = vertex
        · exact absurd (h1.trans h2.symm) hne
        · refine ⟨?_, ?_, ?_⟩
          · simp only [if_pos h1, if_neg h2]
            have := hbound e.endVertex hend
            omega
          · simp only [if_pos h1]
            exact Or.inl (List.mem_cons_self _ _)
          · simp only [if_neg h2]
            exact Or.inr ⟨hend, h2⟩
        · refine ⟨?_, ?_, ?_⟩
          · simp only [if_neg h1, if_pos h2]
            have := hbound e.startVertex hs
            omega
          · simp only [if_neg h1]
            exact Or.inr ⟨hs, h1⟩
          · simp only [if_pos h2]
            exact Or.inl (List.mem_cons_self _ _)
        · rcases hinc with h | h
          · exact absurd h h1
          · exact absurd h h2
      · obtain ⟨hne', hs', hend'⟩ := ih (next + 1) hbound2 hall2 e' hmem
        refine ⟨hne', ?_, ?_⟩
        · rcases hs' with h | h
          · exact Or.inl (List.mem_cons.mpr (Or.inr h))
          · exact Or.inr h
        · rcases hend' with h | h
          · exact Or.inl (List.mem_cons.mpr (Or.inr h))
          · exact Or.inr h
    · simp only [cutLoop, if_neg hinc] at he' ⊢
      push_neg at hinc
      rcases List.mem_cons.mp he' with rfl | hmem
      · exact ⟨hne, Or.inr ⟨hs, hinc.1⟩, Or.inr ⟨hend, hinc.2⟩⟩
      · exact ih (next + 1) hbound2 hall2 e' hmem

theorem cutVertex_preserves (c : Circuit) (vertex : ℕ)
    (h : c.vertexInvariant) : (c.cutVertex vertex).vertexInvariant := by
  intro e' he'
  obtain ⟨hne, hs, hend⟩ := cutLoop_spec vertex c.vertices c.circuitElements c.freshVertex
    (fun v hv => vertex_lt_freshVertex c hv) h e' he'
  refine ⟨hne, ?_, ?_⟩
  · rcases hs with h1 | ⟨h1, h2⟩
    · exact List.mem_append.mpr (Or.inl h1)
    · exact List.mem_append.mpr (Or.inr (List.mem_filter.mpr ⟨h1, by simp [h2]⟩))
  · rcases hend with h1 | ⟨h1, h2⟩
    · exact List.mem_append.mpr (Or.inl h1)
    · exact List.mem_append.mpr (Or.inr (List.mem_filter.mpr ⟨h1, by simp [h2]⟩))

theorem editParameter_preserves (c : Circuit) (element : CircuitElementRec) (resistance : ℚ)
    (h : c.vertexInvariant) : (c.editParameter element resistance).vertexInvariant := by
  intro e' he'
  simp only [Circuit.editParameter, List.mem_map] at he'
  obtain ⟨e, he, rfl⟩ := he'
  obtain ⟨hne, hs, hend⟩ := h e he
  by_cases heq : e = element
  · subst heq
    rw [if_pos rfl]
    exact ⟨hne, hs, hend⟩
  · rw [if_neg heq]
    exact ⟨hne, hs, hend⟩

theorem solveStep_preserves (c : Circuit) (currents : CircuitElementRec → ℚ)
    (h : c.vertexInvariant) : (c.solveStep currents).vertexInvariant := by
  intro e' he'
  simp only [Circuit.solveStep, List.mem_map] at he'
  obtain ⟨e, he, rfl⟩ := he'
  exact h e he

theorem dispose_preserves (c : Circuit) (element : CircuitElementRec)
    (h : c.vertexInvariant) : (c.disposeCircuitElement element).vertexInvariant := by
  intro e he
  have hmem : e ∈ c.circuitElements := List.mem_of_mem_erase he
  obtain ⟨hne, hs, hend⟩ := h e hmem
  refine ⟨hne, ?_, ?_⟩
  · refine List.mem_filter.mpr ⟨hs, ?_⟩
    simp only [List.any_eq_true]
    exact ⟨e, he, by simp⟩
  · refine List.mem_filter.mpr ⟨hend, ?_⟩
    simp only [List.any_eq_true]
    exact ⟨e, he, by simp⟩

/-- C8: every element of the active circuit has two distinct vertices, both in
the active vertex set, and each operation — placement, connect, cut, parameter
edit, solve step, removal — preserves this invariant; additionally, a
fixed-length element is only constructed when the distance between its two
vertex positions equals its fixed length to within `1e-6`. -/
theorem circuit_vertex_invariant_preserved (c : Circuit) (resistance : ℚ)
    (targetVertex oldVertex vertex : ℕ) (element : CircuitElementRec)
    (currents : CircuitElementRec → ℚ) (dist : ℚ × ℚ → ℚ × ℚ → ℚ)
    (distanceBetweenVertices : ℚ) (u v : Vertex) (fe : FixedLengthCircuitElement)
    (hinv : c.vertexInvariant) :
    (c.placeElement resistance).vertexInvariant ∧
    (c.connect targetVertex oldVertex).vertexInvariant ∧
    (c.cutVertex vertex).vertexInvariant ∧
    (c.editParameter element resistance).vertexInvariant ∧
    (c.solveStep currents).vertexInvariant ∧
    (c.disposeCircuitElement element).vertexInvariant ∧
    (mkFixedLengthCircuitElement dist distanceBetweenVertices u v = some fe →
      |distanceBetweenVertices - dist u.position v.position| < 1e-6 ∧
      fe.distanceBetweenVertices = distanceBetweenVertices) := by
  refine ⟨placeElement_preserves c resistance hinv,
    connect_preserves c targetVertex oldVertex hinv,
    cutVertex_preserves c vertex hinv,
    editParameter_preserves c element resistance hinv,
    solveStep_preserves c currents hinv,
    dispose_preserves c element hinv, ?_⟩
  intro hmk
  unfold mkFixedLengthCircuitElement at hmk
  by_cases hlt : |distanceBetweenVertices - dist u.position v.position| < 1e-6
  · refine ⟨hlt, ?_⟩
    rw [if_pos hlt] at hmk
    cases hmk
    rfl
  · rw [if_neg hlt] at hmk
    cases hmk

/-- Witness for C8: a concrete two-vertex circuit satisfies the invariant,
placement preserves it, and a fixed-length element whose measured length
matches its specified length is constructed. -/
theorem circuit_vertex_invariant_preserved_witness :
    (⟨[1, 2], [⟨1, 2, 10, 0⟩]⟩ : Circuit).vertexInvariant ∧
    ((⟨[1, 2], [⟨1, 2, 10, 0⟩]⟩ : Circuit).placeElement 4).vertexInvariant ∧
    |(5 : ℚ) - 5| < 1e-6 := by
  have hinv : (⟨[1, 2], [⟨1, 2, 10, 0⟩]⟩ : Circuit).vertexInvariant := by
    intro e he
    rcases List.mem_cons.mp he with rfl | hmem
    · refine ⟨show (1 : ℕ) ≠ 2 by omega, ?_, ?_⟩ <;> simp
    · cases hmem
  have hmk : mkFixedLengthCircuitElement (fun _ _ => 5) 5
      ⟨0, false, (0, 0)⟩ ⟨0, false, (5, 0)⟩
      = some ⟨⟨0, false, (0, 0)⟩, ⟨0, false, (5, 0)⟩, 5, 5⟩ := by
    unfold mkFixedLengthCircuitElement
    rw [if_pos]
    norm_num
  have h := circuit_vertex_invariant_preserved (⟨[1, 2], [⟨1, 2, 10, 0⟩]⟩ : Circuit) 4
    1 2 1 ⟨1, 2, 10, 0⟩ (fun _ => 0) (fun _ _ => 5) 5
    ⟨0, false, (0, 0)⟩ ⟨0, false, (5, 0)⟩
    ⟨⟨0, false, (0, 0)⟩, ⟨0, false, (5, 0)⟩, 5, 5⟩ hinv
  exact ⟨hinv, h.1, (h.2.2.2.2.2.2 hmk).1⟩
